import Mathlib

/-!
Verification of the quantum-number repository's NumberCell carry engine,
sign algebra and trainable-layer code against its specification.

Each Python class that a claim refers to is shallowly embedded as Lean
definitions in a namespace named after its source file.  Python in-place
mutation is modelled by returning the updated object; a cell's `left`
carry chain (which `add` traverses recursively) is modelled as the list
of cells hanging off the `left` pointer, so a Python cell corresponds to
a pair `(head, chain)`.  The remaining pointers (`right`, `up`, `down`,
`in_`, `out`) are never followed by the embedded operations and are kept
as opaque reference identifiers.
-/

namespace QNV

/-- The cell layout shared by `QuantumNumberV8.py`, `QuantumNumberV8Demo28.py`
and `QuantumNumberV8Demo17.py` (all three classes declare the same
attributes): six arbitrary-precision integer coefficients, a sign
bitfield, a metadata counter and the non-`left` pointers (opaque
identifiers; the `left` carry chain is modelled separately as a list). -/
structure QuantumNumberV8 where
  signs : Nat
  metadata : Nat
  a : Int
  b : Int
  c : Int
  d : Int
  e : Int
  f : Int
  right : Option Nat
  up : Option Nat
  down : Option Nat
  in_ : Option Nat
  out : Option Nat
deriving DecidableEq, Repr

/-- `QuantumNumberV8()`: the zero-initialised cell. -/
def mkCell : QuantumNumberV8 :=
  ⟨0, 0, 0, 0, 0, 0, 0, 0, none, none, none, none, none⟩

namespace Demo28

/-- One field of the `add` loop body in `QuantumNumberV8Demo28.py`:
`val = self.field + other.field`; `if val > 10: field := val - 10,
carry := 1 else field := val, carry := 0`. -/
def addStep (s o : Int) : Int × Int :=
  if s + o > 10 then (s + o - 10, 1) else (s + o, 0)

/-- The field loop of `add`: the updated `self`, the freshly built carry
cell, and the `carry_flag` (true when any field exceeded the threshold). -/
def addHead (x y : QuantumNumberV8) : QuantumNumberV8 × QuantumNumberV8 × Bool :=
  let pa := addStep x.a y.a
  let pb := addStep x.b y.b
  let pc := addStep x.c y.c
  let pd := addStep x.d y.d
  let pe := addStep x.e y.e
  let pf := addStep x.f y.f
  ({ x with a := pa.1, b := pb.1, c := pc.1, d := pd.1, e := pe.1, f := pf.1 },
   { mkCell with a := pa.2, b := pb.2, c := pc.2, d := pd.2, e := pe.2, f := pf.2 },
   decide (x.a + y.a > 10) || decide (x.b + y.b > 10) || decide (x.c + y.c > 10) ||
   decide (x.d + y.d > 10) || decide (x.e + y.e > 10) || decide (x.f + y.f > 10))

/-- `QuantumNumberV8.add(self, other)` on a cell given with its left chain:
after the field loop, if any field overflowed the carry cell is added
recursively into `self.left`, creating the link when absent.  Only the six
coefficient fields of `other` are read (its own chain is ignored), exactly
as in the source. -/
def add : QuantumNumberV8 → List QuantumNumberV8 → QuantumNumberV8 →
    QuantumNumberV8 × List QuantumNumberV8
  | x, chain, y =>
    let r := addHead x y
    if r.2.2 then
      match chain with
      | [] => (r.1, [r.2.1])
      | l :: rest =>
        let lr := add l rest r.2.1
        (r.1, lr.1 :: lr.2)
    else (r.1, chain)

/-- One field of the `scale_by_int` loop body: `val = field * scalar`;
`if val > 10: field := val % 10, carry := val // 10 else field := val,
carry := 0` (Python `//`/`%` are floor division and floor modulus, hence
`Int.fdiv`/`Int.fmod`). -/
def scaleStep (s k : Int) : Int × Int :=
  if s * k > 10 then (Int.fmod (s * k) 10, Int.fdiv (s * k) 10) else (s * k, 0)

/-- The updated `self` produced by the field loop of `scale_by_int`. -/
def scaleHead (x : QuantumNumberV8) (k : Int) : QuantumNumberV8 :=
  { x with a := (scaleStep x.a k).1, b := (scaleStep x.b k).1, c := (scaleStep x.c k).1,
           d := (scaleStep x.d k).1, e := (scaleStep x.e k).1, f := (scaleStep x.f k).1 }

/-- The carry cell built by the field loop of `scale_by_int`. -/
def scaleCarry (x : QuantumNumberV8) (k : Int) : QuantumNumberV8 :=
  { mkCell with a := (scaleStep x.a k).2, b := (scaleStep x.b k).2, c := (scaleStep x.c k).2,
                d := (scaleStep x.d k).2, e := (scaleStep x.e k).2, f := (scaleStep x.f k).2 }

/-- The `carry_flag` of `scale_by_int`: set when any field exceeded the
threshold. -/
def scaleFlag (x : QuantumNumberV8) (k : Int) : Bool :=
  decide (x.a * k > 10) || decide (x.b * k > 10) || decide (x.c * k > 10) ||
  decide (x.d * k > 10) || decide (x.e * k > 10) || decide (x.f * k > 10)

/-- `QuantumNumberV8.scale_by_int(self, scalar)` on a cell with its left
chain: the same carry policy applied to `field * scalar`, the carry cell
being `add`ed into the left chain when any field overflowed. -/
def scale_by_int (x : QuantumNumberV8) (chain : List QuantumNumberV8) (k : Int) :
    QuantumNumberV8 × List QuantumNumberV8 :=
  if scaleFlag x k then
    match chain with
    | [] => (scaleHead x k, [scaleCarry x k])
    | l :: rest =>
      let lr := add l rest (scaleCarry x k)
      (scaleHead x k, lr.1 :: lr.2)
  else (scaleHead x k, chain)

/-- Mixed-radix reconstruction of one coefficient over a cell list in base
10: `Σ chain[k].field * 10^k`, the field being selected by `g`. -/
def recon (g : QuantumNumberV8 → Int) : List QuantumNumberV8 → Int
  | [] => 0
  | c :: rest => g c + 10 * recon g rest

/-- The six coefficient selectors, in the source's field order. -/
def selectors : List (QuantumNumberV8 → Int) :=
  [fun q => q.a, fun q => q.b, fun q => q.c, fun q => q.d, fun q => q.e, fun q => q.f]

/-- The `tmp` cell built at line 101-102 of `QuantumNumberV8Demo28.py`: a
fresh cell whose six coefficients are copied from `q` (signs, metadata
and pointers are those of a fresh cell). -/
def copyFields (q : QuantumNumberV8) : QuantumNumberV8 :=
  { mkCell with a := q.a, b := q.b, c := q.c, d := q.d, e := q.e, f := q.f }

/-- A cell together with its left carry chain, as stored in a layer. -/
abbrev CellChain := QuantumNumberV8 × List QuantumNumberV8

/-- `QuantumLayer` of `QuantumNumberV8Demo28.py`: weights and biases are
cells (with their carry chains), keyed by the configured input/output
key lists.  Key order of the Python dicts is the insertion order, i.e.
the order of the key lists. -/
structure QuantumLayer where
  inputs : List String
  outputs : List String
  weights : String → String → CellChain
  biases : String → CellChain

/-- `QuantumLayer.forward(self, input_vector)`: for each output key,
accumulate into a fresh cell the weight cells scaled by the input values
(missing input keys read as 0 via `dict.get(i, 0)`), then add the bias;
each `add` reads only the head coefficients of its operand. -/
def QuantumLayer.forward (L : QuantumLayer) (input : String → Option Int) :
    String → CellChain := fun o =>
  let s := L.inputs.foldl
    (fun sum i =>
      let tmp := scale_by_int (copyFields (L.weights o i).1) [] ((input i).getD 0)
      add sum.1 sum.2 tmp.1)
    (mkCell, [])
  add s.1 s.2 (L.biases o).1

/-- Functional update of the weight table at one output/input key pair. -/
def updWeight (L : QuantumLayer) (o i : String) (w : CellChain) : QuantumLayer :=
  { L with weights := fun o1 i1 => if o1 = o ∧ i1 = i then w else L.weights o1 i1 }

/-- Functional update of the bias table at one output key. -/
def updBias (L : QuantumLayer) (o : String) (b : CellChain) : QuantumLayer :=
  { L with biases := fun o1 => if o1 = o then b else L.biases o1 }

/-- The weight-update loop of `train_step` for one output key: each weight
receives `add` of the delta cell `error.a * input[i] * lr`. -/
def trainWeights (input : String → Option Int) (e lr : Int) (o : String) :
    List String → QuantumLayer → QuantumLayer
  | [], acc => acc
  | i :: rest, acc =>
    let w := acc.weights o i
    trainWeights input e lr o rest
      (updWeight acc o i (add w.1 w.2 { mkCell with a := e * (input i).getD 0 * lr }))

/-- The output loop of `train_step`: per output key compute
`error.a = target[o] - output[o].a`, update the weights, then `add` the
bias delta `error.a * lr`. -/
def trainOutputs (input : String → Option Int) (target : String → Int) (lr : Int)
    (output : String → CellChain) (inputs : List String) :
    List String → QuantumLayer → QuantumLayer
  | [], acc => acc
  | o :: rest, acc =>
    let e := target o - (output o).1.a
    let acc1 := trainWeights input e lr o inputs acc
    let bb := acc1.biases o
    trainOutputs input target lr output inputs rest
      (updBias acc1 o (add bb.1 bb.2 { mkCell with a := e * lr }))

/-- `QuantumLayer.train_step(self, input_vector, target_vector,
learning_rate)`: compute `output = forward(input)`, then run the update
loops over the configured keys.  The target lookup `target_vector[o]` is
modelled total (the claims evaluate it only where the key is present). -/
def QuantumLayer.train_step (L : QuantumLayer) (input : String → Option Int)
    (target : String → Int) (lr : Int) : QuantumLayer :=
  trainOutputs input target lr (L.forward input) L.inputs L.outputs L

/-- The joint effect of the Python call `x.add(y)` on the pair of objects
`(x, y)` (each with its left chain): the method body contains writes to
`self` and to the fresh carry cell only — `other` is only read — so the
operand side is returned unchanged. -/
def addPair (x : QuantumNumberV8) (xchain : List QuantumNumberV8)
    (y : QuantumNumberV8) (ychain : List QuantumNumberV8) :
    CellChain × CellChain :=
  (add x xchain y, (y, ychain))

end Demo28

namespace SpecC1

/-- Modelled from the spec's words for claim C1 (the mandated mixed-radix
policy): retained value = `sum mod base`, overflow = `floor(sum / base)`
with base 10. -/
def addStep (s o : Int) : Int × Int :=
  (Int.fmod (s + o) 10, Int.fdiv (s + o) 10)

/-- Modelled from the spec's words for claim C1: each field holds the
retained value; if overflow is nonzero for any field, a carry cell holding
the per-field overflows is recursively added into the left chain, creating
the link when absent. -/
def add : QuantumNumberV8 → List QuantumNumberV8 → QuantumNumberV8 →
    QuantumNumberV8 × List QuantumNumberV8
  | x, chain, y =>
    let pa := addStep x.a y.a
    let pb := addStep x.b y.b
    let pc := addStep x.c y.c
    let pd := addStep x.d y.d
    let pe := addStep x.e y.e
    let pf := addStep x.f y.f
    let x' := { x with a := pa.1, b := pb.1, c := pc.1, d := pd.1, e := pe.1, f := pf.1 }
    let carry := { mkCell with a := pa.2, b := pb.2, c := pc.2, d := pd.2, e := pe.2, f := pf.2 }
    if pa.2 ≠ 0 ∨ pb.2 ≠ 0 ∨ pc.2 ≠ 0 ∨ pd.2 ≠ 0 ∨ pe.2 ≠ 0 ∨ pf.2 ≠ 0 then
      match chain with
      | [] => (x', [carry])
      | l :: rest =>
        let lr := add l rest carry
        (x', lr.1 :: lr.2)
    else (x', chain)

/-- The amended per-field policy actually implemented by
`QuantumNumberV8Demo28.add`: when `sum > 10` the field retains `sum - 10`
and the carry field is the flag value 1; otherwise the field retains
`sum` unreduced (including `sum = 10`) and the carry field is 0. -/
def addStepAmended (s o : Int) : Int × Int :=
  if s + o > 10 then (s + o - 10, 1) else (s + o, 0)

/-- The amended claim C1 as a standalone definition: fields by
`addStepAmended`, and the carry cell is recursively added into the left
chain (created when absent) exactly when some per-field carry value is
nonzero. -/
def addAmended : QuantumNumberV8 → List QuantumNumberV8 → QuantumNumberV8 →
    QuantumNumberV8 × List QuantumNumberV8
  | x, chain, y =>
    let pa := addStepAmended x.a y.a
    let pb := addStepAmended x.b y.b
    let pc := addStepAmended x.c y.c
    let pd := addStepAmended x.d y.d
    let pe := addStepAmended x.e y.e
    let pf := addStepAmended x.f y.f
    let x' := { x with a := pa.1, b := pb.1, c := pc.1, d := pd.1, e := pe.1, f := pf.1 }
    let carry := { mkCell with a := pa.2, b := pb.2, c := pc.2, d := pd.2, e := pe.2, f := pf.2 }
    if pa.2 ≠ 0 ∨ pb.2 ≠ 0 ∨ pc.2 ≠ 0 ∨ pd.2 ≠ 0 ∨ pe.2 ≠ 0 ∨ pf.2 ≠ 0 then
      match chain with
      | [] => (x', [carry])
      | l :: rest =>
        let lr := addAmended l rest carry
        (x', lr.1 :: lr.2)
    else (x', chain)

end SpecC1

namespace Demo5

/-- `toggle_sign_bit(self, term_index)` of `QuantumNumberV8Demo5.py`:
`signs ^= (1 << term_index)`. -/
def toggle_sign_bit (q : QuantumNumberV8) (i : Nat) : QuantumNumberV8 :=
  { q with signs := Nat.xor q.signs (1 <<< i) }

/-- `multiply_by(self, factor)`: on a negative factor, toggle sign bits 0
(`a`) and 3 (`d`) and negate the factor; then `e += factor`. -/
def multiply_by (q : QuantumNumberV8) (factor : Int) : QuantumNumberV8 :=
  if factor < 0 then
    let q1 := toggle_sign_bit (toggle_sign_bit q 0) 3
    { q1 with e := q1.e + (-factor) }
  else
    { q with e := q.e + factor }

/-- `divide_by(self, divisor)`: on a negative divisor, toggle sign bits 1
(`b`) and 4 (`e`) and negate the divisor; then `f += divisor`. -/
def divide_by (q : QuantumNumberV8) (divisor : Int) : QuantumNumberV8 :=
  if divisor < 0 then
    let q1 := toggle_sign_bit (toggle_sign_bit q 1) 4
    { q1 with f := q1.f + (-divisor) }
  else
    { q with f := q.f + divisor }

end Demo5

namespace Demo6

/-- `multiply(self, qnum, factor, sign_flip)` of `QuantumNumberV8Demo6.py`:
`e += factor`; flip sign bit 0 (`a`) only when the explicit `sign_flip`
flag is set (the factor's own sign is never inspected). -/
def multiply (q : QuantumNumberV8) (factor : Int) (sign_flip : Bool) : QuantumNumberV8 :=
  { q with e := q.e + factor,
           signs := if sign_flip then Nat.xor q.signs 1 else q.signs }

/-- `divide(self, qnum, factor, sign_flip)`: `f += factor`; flip sign bit 3
(`d`) only when the explicit `sign_flip` flag is set. -/
def divide (q : QuantumNumberV8) (factor : Int) (sign_flip : Bool) : QuantumNumberV8 :=
  { q with f := q.f + factor,
           signs := if sign_flip then Nat.xor q.signs 8 else q.signs }

end Demo6

namespace Demo7

/-- `multiply(self, qnum, factor, sign_flip)` of `QuantumNumberV8Demo7.py`:
`e += factor`; flip sign bit 0 when requested; `metadata += 1`. -/
def multiply (q : QuantumNumberV8) (factor : Int) (sign_flip : Bool) : QuantumNumberV8 :=
  { q with e := q.e + factor,
           signs := if sign_flip then Nat.xor q.signs 1 else q.signs,
           metadata := q.metadata + 1 }

/-- `divide(self, qnum, factor, sign_flip)`: `f += factor`; flip sign bit 3
when requested; `metadata += 1`. -/
def divide (q : QuantumNumberV8) (factor : Int) (sign_flip : Bool) : QuantumNumberV8 :=
  { q with f := q.f + factor,
           signs := if sign_flip then Nat.xor q.signs 8 else q.signs,
           metadata := q.metadata + 1 }

/-- `relu_activation(self, qnum)`: if sign bit 0 is set, zero coefficient
`a`, clear bit 0 (`signs &= ~1`, modelled as dropping the parity bit) and
increment `metadata`; otherwise no change. -/
def relu_activation (q : QuantumNumberV8) : QuantumNumberV8 :=
  if q.signs % 2 = 1 then
    { q with a := 0, signs := 2 * (q.signs / 2), metadata := q.metadata + 1 }
  else q

end Demo7

namespace Demo17

/-- `QuantumNumberV8.relu(self)` of `QuantumNumberV8Demo17.py`: zero the
`a` coefficient when it is negative; nothing else (in particular not the
metadata counter) is touched. -/
def relu (q : QuantumNumberV8) : QuantumNumberV8 :=
  if q.a < 0 then { q with a := 0 } else q

end Demo17

namespace Demo24

/-- `QuantumNumber` of `QuantumNumberV8Demo24.py`: a little-endian digit
list with a base and a sign (1 or -1).  Digits are the non-negative
remainders the source's rebuild loop produces. -/
structure QuantumNumber where
  base : Nat
  sign : Int
  digits : List Nat
deriving DecidableEq, Repr

/-- The pop loop of `_normalize` on the reversed digit list: drop leading
(that is, trailing in the stored order) zeros while more than one digit
remains. -/
def popZerosRev : List Nat → List Nat
  | [] => []
  | z :: rest => if z = 0 ∧ rest ≠ [] then popZerosRev rest else z :: rest

/-- `QuantumNumber._normalize(self)`: remove trailing zero digits (keeping
at least one), and force the sign positive when the value is the single
digit 0. -/
def normalize (q : QuantumNumber) : QuantumNumber :=
  let ds := (popZerosRev q.digits.reverse).reverse
  { q with digits := ds, sign := if ds = [0] then 1 else q.sign }

/-- `QuantumNumber(digits, base, sign)`: `None` digits become `[0]`
without normalisation; explicit digits are normalised. -/
def mkQN (digits : Option (List Nat)) (base : Nat) (sign : Int) : QuantumNumber :=
  match digits with
  | none => ⟨base, sign, [0]⟩
  | some ds => normalize ⟨base, sign, ds⟩

/-- `QuantumNumber.to_int(self)`: Horner evaluation of the digit list
(most significant first over the reversed order), times the sign. -/
def QuantumNumber.to_int (q : QuantumNumber) : Int :=
  q.sign * ((Nat.ofDigits q.base q.digits : Nat) : Int)

/-- `QuantumNumber.add(self, value)`: no-op on zero; otherwise rebuild the
digit list from `|to_int() + value|` by repeated division by the base
(`Nat.digits`), set the sign from the new value, and normalise. -/
def QuantumNumber.add (q : QuantumNumber) (value : Int) : QuantumNumber :=
  if value = 0 then q
  else
    let newVal := q.to_int + value
    let sgn : Int := if 0 ≤ newVal then 1 else -1
    let absVal := newVal.natAbs
    if absVal = 0 then ⟨q.base, 1, [0]⟩
    else normalize ⟨q.base, sgn, Nat.digits q.base absVal⟩

/-- `QuantumNumberLayer` of `QuantumNumberV8Demo24.py`: weights and biases
are `QuantumNumber`s keyed by the configured key lists. -/
structure QuantumNumberLayer where
  base : Nat
  input_keys : List String
  output_keys : List String
  weights : String → String → QuantumNumber
  biases : String → QuantumNumber

/-- `QuantumNumberLayer.forward(self, inp)`: for each output key,
`total = bias.to_int() + Σ weight.to_int() * inp.get(i, 0)` over the
configured input keys, returned as a `QuantumNumber` built by
`QuantumNumber([], base).add(total)`. -/
def QuantumNumberLayer.forward (L : QuantumNumberLayer) (inp : String → Option Int) :
    String → QuantumNumber := fun o =>
  let total := L.input_keys.foldl
    (fun t i => t + (L.weights o i).to_int * (inp i).getD 0)
    (L.biases o).to_int
  QuantumNumber.add ⟨L.base, 1, []⟩ total

/-- `QuantumNumberLayer.train_step(self, inp, target, learning_rate)`:
forward, then per output key `error = target[o] - output[o].to_int()`,
adding `error * inp.get(i, 0) * lr` into each weight and `error * lr`
into the bias (the `if delta != 0` guards only skip no-op adds, which
`QuantumNumber.add` already ignores). -/
def QuantumNumberLayer.train_step (L : QuantumNumberLayer) (inp : String → Option Int)
    (target : String → Int) (lr : Int) : QuantumNumberLayer :=
  let output := L.forward inp
  L.output_keys.foldl
    (fun acc o =>
      let e := target o - (output o).to_int
      let acc1 := L.input_keys.foldl
        (fun acc2 i =>
          let w := acc2.weights o i
          { acc2 with weights :=
              fun o1 i1 => if o1 = o ∧ i1 = i then w.add (e * (inp i).getD 0 * lr)
                           else acc2.weights o1 i1 })
        acc
      let bq := acc1.biases o
      { acc1 with biases := fun o1 => if o1 = o then bq.add (e * lr) else acc1.biases o1 })
    L

end Demo24

namespace Demo23

/-- `QuantumNumberLayer` of `QuantumNumberV8Demo23.py`: plain integer
weights and biases plus a per-key base table.  The base table is a dict
whose lookups can fail (`KeyError`), hence `Option`. -/
structure QuantumNumberLayer where
  input_keys : List String
  output_keys : List String
  bases : String → Option Int
  weights : String → String → Int
  biases : String → Int

/-- A Python `KeyError` raised by a failing dict subscript. -/
def keyError (k : String) : String := "KeyError: " ++ k

/-- The inner accumulation loop of `forward` for one output key:
`total += weights[out_k][in_k] * input_qn[in_k]`, failing on the first
input key missing from the caller's mapping. -/
def forwardTotal (L : QuantumNumberLayer) (input : String → Option Int)
    (o : String) : List String → Int → Except String Int
  | [], t => .ok t
  | i :: rest, t =>
    match input i with
    | none => .error (keyError i)
    | some v => forwardTotal L input o rest (t + L.weights o i * v)

/-- The per-output body of `forward`: accumulate the total, then reduce it
modulo the configured base (`total % base`, Python floor modulus), failing
when the base table has no entry for the output key. -/
def forwardEntry (L : QuantumNumberLayer) (input : String → Option Int)
    (o : String) : Except String Int := do
  let t ← forwardTotal L input o L.input_keys (L.biases o)
  match L.bases o with
  | none => .error (keyError o)
  | some b => .ok (Int.fmod t b)

/-- `QuantumNumberLayer.forward(self, input_qn)`: outputs for all
configured output keys, aborting with the first `KeyError`. -/
def QuantumNumberLayer.forward (L : QuantumNumberLayer) (input : String → Option Int) :
    Except String (List (String × Int)) :=
  L.output_keys.foldlM
    (fun acc o => do
      let v ← forwardEntry L input o
      pure (acc ++ [(o, v)]))
    []

/-- Functional update of the bias table at one key. -/
def setBias (L : QuantumNumberLayer) (o : String) (v : Int) : QuantumNumberLayer :=
  { L with biases := fun o1 => if o1 = o then v else L.biases o1 }

/-- Functional update of the weight table at one output/input key pair. -/
def setWeight (L : QuantumNumberLayer) (o i : String) (v : Int) : QuantumNumberLayer :=
  { L with weights := fun o1 i1 => if o1 = o ∧ i1 = i then v else L.weights o1 i1 }

/-- The error-computation loop of `backward`:
`errors[k] = target_qn[k] - output_qn[k]`, failing on a missing key and
performed before any mutation. -/
def backwardErrors (target output : String → Option Int) :
    List String → Except String (String → Int) →
    Except String (String → Int)
  | [], acc => acc
  | k :: rest, acc =>
    match acc with
    | .error m => .error m
    | .ok es =>
      match target k, output k with
      | some t, some ov =>
        backwardErrors target output rest
          (.ok (fun k1 => if k1 = k then t - ov else es k1))
      | none, _ => .error (keyError k)
      | some _, none => .error (keyError k)

/-- The weight-update loop of `backward` for one output key: each step
reads `input_qn[in_k]`, which may raise mid-loop; updates already made to
this layer are kept (in-place mutation). -/
def backwardWeights (input : String → Option Int) (lr e : Int) (o : String) :
    List String → QuantumNumberLayer → QuantumNumberLayer × Option String
  | [], L => (L, none)
  | i :: rest, L =>
    match input i with
    | none => (L, some (keyError i))
    | some v =>
      backwardWeights input lr e o rest (setWeight L o i (L.weights o i + lr * e * v))

/-- The mutation phase of `backward` over the output keys: for each key
update the bias, then the weights; stop at the first raised `KeyError`,
keeping all mutations made so far. -/
def backwardUpdate (input : String → Option Int) (lr : Int) (es : String → Int) :
    List String → QuantumNumberLayer → QuantumNumberLayer × Option String
  | [], L => (L, none)
  | o :: rest, L =>
    let L1 := setBias L o (L.biases o + lr * es o)
    match backwardWeights input lr (es o) o L.input_keys L1 with
    | (L2, none) => backwardUpdate input lr es rest L2
    | (L2, some m) => (L2, some m)

/-- `QuantumNumberLayer.backward(self, input_qn, target_qn, output_qn,
learning_rate)`: compute all errors first (aborting cleanly on a missing
target/output key), then mutate biases and weights in place, where a
missing input key raises after earlier mutations are already committed.
The returned pair is the layer state after the call together with the
raised error, if any. -/
def QuantumNumberLayer.backward (L : QuantumNumberLayer) (input target output : String → Option Int)
    (lr : Int) : QuantumNumberLayer × Option String :=
  match backwardErrors target output L.output_keys (.ok fun _ => 0) with
  | .error m => (L, some m)
  | .ok es => backwardUpdate input lr es L.output_keys L

end Demo23

namespace Scenario3

/-- The single-scalar training scenario of claim C3 on the Demo28 layer:
one input key, one output key, initial weight coefficient `a = 1`, bias 0. -/
def layer0 : Demo28.QuantumLayer where
  inputs := ["i"]
  outputs := ["o"]
  weights := fun _ _ => ({ mkCell with a := 1 }, [])
  biases := fun _ => (mkCell, [])

/-- The scenario's input mapping: the single input value 2. -/
def inp : String → Option Int := fun k => if k = "i" then some 2 else none

/-- The scenario's target mapping: target 10. -/
def tgt : String → Int := fun _ => 10

/-- The layer state after `n` repeated `train_step` calls. -/
def steps (lr : Int) : Nat → Demo28.QuantumLayer
  | 0 => layer0
  | n + 1 => (steps lr n).train_step inp tgt lr

/-- The output coefficient `a` produced by `forward` at step `n` (the
value `train_step` number `n` computes its error from). -/
def outA (lr : Int) (n : Nat) : Int :=
  ((steps lr n).forward inp "o").1.a

/-- The error magnitude `|target - output|` at step `n`. -/
def errAbs (lr : Int) (n : Nat) : Nat :=
  (10 - outA lr n).natAbs

/-- The head coefficients `(weight.a, bias.a)` of a scenario layer; the
Demo28 update and forward paths touch the heads componentwise, so this
projection evolves autonomously. -/
def proj (L : Demo28.QuantumLayer) : Int × Int :=
  ((L.weights "o" "i").1.a, (L.biases "o").1.a)

/-- The scenario's forward output head as a function of the projected
state: scale the weight by 2, accumulate into a zero cell, add the bias. -/
def gOut (p : Int × Int) : Int :=
  (Demo28.addStep (Demo28.addStep 0 (Demo28.scaleStep p.1 2).1).1 p.2).1

/-- One `train_step` on the projected state: error `10 - gOut`, weight
head receives `addStep` of `e * 2 * lr`, bias head of `e * lr`. -/
def fStep (lr : Int) (p : Int × Int) : Int × Int :=
  let e := 10 - gOut p
  ((Demo28.addStep p.1 (e * 2 * lr)).1, (Demo28.addStep p.2 (e * lr)).1)

/-- The projected state after `n` steps. -/
def pSeq (lr : Int) : Nat → Int × Int
  | 0 => (1, 0)
  | n + 1 => fStep lr (pSeq lr n)

/-- The invariant of the learning-rate-1 run: the weight head grows by 6
each step while the bias head cycles through 8, 6, 4, 2, 10 (0 only in
the initial state) in lockstep with the weight's residue mod 5; every
such state produces output 2. -/
def Inv (p : Int × Int) : Prop :=
  0 ≤ p.1 ∧
  ((p.1 % 5 = 1 ∧ (p.2 = 0 ∨ p.2 = 10)) ∨ (p.1 % 5 = 2 ∧ p.2 = 8) ∨
   (p.1 % 5 = 3 ∧ p.2 = 6) ∨ (p.1 % 5 = 4 ∧ p.2 = 4) ∨ (p.1 % 5 = 0 ∧ p.2 = 2))

end Scenario3

namespace Scenario5

/-- A concrete Demo23 layer for the unknown-key scenario: inputs `a`, `b`,
output `x`, all weights 1, all biases 0, base 100. -/
def layer0 : Demo23.QuantumNumberLayer where
  input_keys := ["a", "b"]
  output_keys := ["x"]
  bases := fun _ => some 100
  weights := fun _ _ => 1
  biases := fun _ => 0

/-- An input mapping missing the configured key `b`. -/
def inp : String → Option Int := fun k => if k = "a" then some 1 else none

/-- A target mapping with the configured output key present. -/
def tgt : String → Option Int := fun k => if k = "x" then some 5 else none

/-- An output mapping (as the caller passes to `backward`) with the
configured output key present. -/
def outv : String → Option Int := fun k => if k = "x" then some 3 else none

end Scenario5

section Lemmas

open Demo28

/-- An add field step retains `sum - 10*carry`: head plus ten times carry
recovers the exact field sum. -/
theorem addStep_decomp (s o : Int) : (addStep s o).1 + 10 * (addStep s o).2 = s + o := by
  unfold addStep; split <;> ring

/-- A scale field step retains `val - 10*carry`: head plus ten times carry
recovers the exact scaled field. -/
theorem scaleStep_decomp (s k : Int) : (scaleStep s k).1 + 10 * (scaleStep s k).2 = s * k := by
  unfold scaleStep; split
  · simpa [mul_comm] using Int.fmod_add_fdiv (s * k) 10
  · ring

/-- The head cell returned by `add` is the field-loop update of `self`,
whatever the carry branch does. -/
theorem add_fst (x : QuantumNumberV8) (chain : List QuantumNumberV8) (y : QuantumNumberV8) :
    (add x chain y).1 = (addHead x y).1 := by
  unfold add
  cases chain <;> dsimp only <;> split <;> rfl

/-- The head cell returned by `scale_by_int` is the field-loop update of
`self`, whatever the carry branch does. -/
theorem scale_fst (x : QuantumNumberV8) (chain : List QuantumNumberV8) (k : Int) :
    (scale_by_int x chain k).1 = scaleHead x k := by
  unfold scale_by_int
  cases chain <;> dsimp only <;> split <;> rfl

/-- Python floor modulus by the positive literal 10 agrees with the
euclidean modulus. -/
theorem fmod10 (a : Int) : Int.fmod a 10 = a % 10 :=
  Int.fmod_eq_emod a (by norm_num)

/-- The retained field of an add step, written as a plain conditional. -/
theorem addStep_fst (s o : Int) :
    (addStep s o).1 = if s + o > 10 then s + o - 10 else s + o := by
  unfold addStep
  split_ifs <;> rfl

/-- The retained field of a scale step, written as a plain conditional. -/
theorem scaleStep_fst (s k : Int) :
    (scaleStep s k).1 = if s * k > 10 then (s * k) % 10 else s * k := by
  unfold scaleStep
  split_ifs <;> simp [fmod10]

end Lemmas

/-- C1 counterexample: at `x.a = 5`, `y.a = 5` the field sum is 10;
`add` retains 10 and emits no carry, while the claimed mixed-radix policy
retains `10 mod 10 = 0` with overflow 1 and creates the left link. -/
theorem C1_counterexample :
    Demo28.add { mkCell with a := 5 } [] { mkCell with a := 5 }
      ≠ SpecC1.add { mkCell with a := 5 } [] { mkCell with a := 5 } := by
  decide

/-- C1 (amended): for every two cells and every left chain, `add` stores,
for each field with `sum > 10`, the retained value `sum - 10` and the
carry flag value 1, and stores `sum` with carry 0 otherwise (including
`sum = 10`); when any per-field carry is nonzero the carry cell is
recursively added into the left chain, the link being created when
absent. -/
theorem C1_theorem (x : QuantumNumberV8) (chain : List QuantumNumberV8)
    (y : QuantumNumberV8) :
    Demo28.add x chain y = SpecC1.addAmended x chain y := by
  have key : ∀ s o : Int, ((SpecC1.addStepAmended s o).2 ≠ 0) ↔ (s + o > 10) := by
    intro s o
    unfold SpecC1.addStepAmended
    split <;> rename_i h <;> simp [h]
  have hflag : ∀ x y : QuantumNumberV8, (Demo28.addHead x y).2.2 = true ↔
      (x.a + y.a > 10 ∨ x.b + y.b > 10 ∨ x.c + y.c > 10 ∨ x.d + y.d > 10 ∨
       x.e + y.e > 10 ∨ x.f + y.f > 10) := by
    intro x y
    simp [Demo28.addHead, Bool.or_eq_true, decide_eq_true_eq, or_assoc]
  induction chain generalizing x y with
  | nil =>
    by_cases hcond : (x.a + y.a > 10 ∨ x.b + y.b > 10 ∨ x.c + y.c > 10 ∨
        x.d + y.d > 10 ∨ x.e + y.e > 10 ∨ x.f + y.f > 10)
    · have hf : (Demo28.addHead x y).2.2 = true := (hflag x y).2 hcond
      have hd : (SpecC1.addStepAmended x.a y.a).2 ≠ 0 ∨ (SpecC1.addStepAmended x.b y.b).2 ≠ 0 ∨
          (SpecC1.addStepAmended x.c y.c).2 ≠ 0 ∨ (SpecC1.addStepAmended x.d y.d).2 ≠ 0 ∨
          (SpecC1.addStepAmended x.e y.e).2 ≠ 0 ∨ (SpecC1.addStepAmended x.f y.f).2 ≠ 0 := by
        simp only [key]; exact hcond
      simp only [Demo28.add, SpecC1.addAmended, hf, if_true, if_pos hd]
      rfl
    · have hf : (Demo28.addHead x y).2.2 = false := by
        have := (hflag x y).1
        rcases h : (Demo28.addHead x y).2.2 with _ | _
        · rfl
        · exact absurd (this h) hcond
      have hd : ¬ ((SpecC1.addStepAmended x.a y.a).2 ≠ 0 ∨ (SpecC1.addStepAmended x.b y.b).2 ≠ 0 ∨
          (SpecC1.addStepAmended x.c y.c).2 ≠ 0 ∨ (SpecC1.addStepAmended x.d y.d).2 ≠ 0 ∨
          (SpecC1.addStepAmended x.e y.e).2 ≠ 0 ∨ (SpecC1.addStepAmended x.f y.f).2 ≠ 0) := by
        simp only [key]; exact hcond
      simp only [Demo28.add, SpecC1.addAmended, hf, Bool.false_eq_true, if_false, if_neg hd]
      rfl
  | cons l rest ih =>
    by_cases hcond : (x.a + y.a > 10 ∨ x.b + y.b > 10 ∨ x.c + y.c > 10 ∨
        x.d + y.d > 10 ∨ x.e + y.e > 10 ∨ x.f + y.f > 10)
    · have hf : (Demo28.addHead x y).2.2 = true := (hflag x y).2 hcond
      have hd : (SpecC1.addStepAmended x.a y.a).2 ≠ 0 ∨ (SpecC1.addStepAmended x.b y.b).2 ≠ 0 ∨
          (SpecC1.addStepAmended x.c y.c).2 ≠ 0 ∨ (SpecC1.addStepAmended x.d y.d).2 ≠ 0 ∨
          (SpecC1.addStepAmended x.e y.e).2 ≠ 0 ∨ (SpecC1.addStepAmended x.f y.f).2 ≠ 0 := by
        simp only [key]; exact hcond
      simp only [Demo28.add, SpecC1.addAmended, hf, if_true, if_pos hd]
      rw [ih]
      rfl
    · have hf : (Demo28.addHead x y).2.2 = false := by
        have := (hflag x y).1
        rcases h : (Demo28.addHead x y).2.2 with _ | _
        · rfl
        · exact absurd (this h) hcond
      have hd : ¬ ((SpecC1.addStepAmended x.a y.a).2 ≠ 0 ∨ (SpecC1.addStepAmended x.b y.b).2 ≠ 0 ∨
          (SpecC1.addStepAmended x.c y.c).2 ≠ 0 ∨ (SpecC1.addStepAmended x.d y.d).2 ≠ 0 ∨
          (SpecC1.addStepAmended x.e y.e).2 ≠ 0 ∨ (SpecC1.addStepAmended x.f y.f).2 ≠ 0) := by
        simp only [key]; exact hcond
      simp only [Demo28.add, SpecC1.addAmended, hf, Bool.false_eq_true, if_false, if_neg hd]
      rfl

/-- C6 counterexample: a cell with `a = 11` is changed by
`scale_by_int(x, 1)` — the product `11` exceeds the threshold, the field
is reduced to 1 and a carry cell is linked. -/
theorem C6_counterexample :
    Demo28.scale_by_int { mkCell with a := 11 } [] 1 ≠ ({ mkCell with a := 11 }, []) := by
  decide

/-- C6 (amended): `scale_by_int(x, 1)` leaves the cell and its chain
unchanged field-for-field, and emits no carry, provided every coefficient
is at most 10 (above that, the threshold branch rewrites the field even
for scalar 1). -/
theorem C6_theorem (x : QuantumNumberV8) (chain : List QuantumNumberV8)
    (h : x.a ≤ 10 ∧ x.b ≤ 10 ∧ x.c ≤ 10 ∧ x.d ≤ 10 ∧ x.e ≤ 10 ∧ x.f ≤ 10) :
    Demo28.scale_by_int x chain 1 = (x, chain) := by
  obtain ⟨ha, hb, hc, hd, he, hf⟩ := h
  have hss : ∀ s : Int, s ≤ 10 → Demo28.scaleStep s 1 = (s, 0) := by
    intro s hs
    unfold Demo28.scaleStep
    rw [mul_one, if_neg (by omega)]
  have hflag : Demo28.scaleFlag x 1 = false := by
    simp only [Demo28.scaleFlag, mul_one, Bool.or_eq_false_iff, decide_eq_false_iff_not, not_lt]
    omega
  have hhead : Demo28.scaleHead x 1 = x := by
    unfold Demo28.scaleHead
    rw [hss x.a ha, hss x.b hb, hss x.c hc, hss x.d hd, hss x.e he, hss x.f hf]
  simp only [Demo28.scale_by_int, hflag, Bool.false_eq_true, if_false, hhead]

/-- C6 witness: the amended theorem applied to a concrete cell with all
coefficients at most 10. -/
theorem C6_witness :
    ((⟨3, 7, 1, 2, 3, 4, 5, 10, none, none, none, none, none⟩ : QuantumNumberV8).a ≤ 10 ∧
      (⟨3, 7, 1, 2, 3, 4, 5, 10, none, none, none, none, none⟩ : QuantumNumberV8).f ≤ 10) ∧
    Demo28.scale_by_int ⟨3, 7, 1, 2, 3, 4, 5, 10, none, none, none, none, none⟩ [mkCell] 1 =
      (⟨3, 7, 1, 2, 3, 4, 5, 10, none, none, none, none, none⟩, [mkCell]) :=
  ⟨by decide,
   C6_theorem ⟨3, 7, 1, 2, 3, 4, 5, 10, none, none, none, none, none⟩ [mkCell] (by decide)⟩

/-- C7 (confirmed): when all coefficients of both cells are non-negative
and below `base/2 = 5`, every field sum stays at most 8, so no field of
the result reaches the base 10 and the carry branch never runs — the
left chain is exactly the one passed in (no link is created). -/
theorem C7_theorem (x y : QuantumNumberV8) (chain : List QuantumNumberV8)
    (hx : 0 ≤ x.a ∧ x.a < 5 ∧ 0 ≤ x.b ∧ x.b < 5 ∧ 0 ≤ x.c ∧ x.c < 5 ∧
          0 ≤ x.d ∧ x.d < 5 ∧ 0 ≤ x.e ∧ x.e < 5 ∧ 0 ≤ x.f ∧ x.f < 5)
    (hy : 0 ≤ y.a ∧ y.a < 5 ∧ 0 ≤ y.b ∧ y.b < 5 ∧ 0 ≤ y.c ∧ y.c < 5 ∧
          0 ≤ y.d ∧ y.d < 5 ∧ 0 ≤ y.e ∧ y.e < 5 ∧ 0 ≤ y.f ∧ y.f < 5) :
    ((Demo28.add x chain y).1.a < 10 ∧ (Demo28.add x chain y).1.b < 10 ∧
     (Demo28.add x chain y).1.c < 10 ∧ (Demo28.add x chain y).1.d < 10 ∧
     (Demo28.add x chain y).1.e < 10 ∧ (Demo28.add x chain y).1.f < 10) ∧
    (Demo28.add x chain y).2 = chain := by
  obtain ⟨hxa, hxa', hxb, hxb', hxc, hxc', hxd, hxd', hxe, hxe', hxf, hxf'⟩ := hx
  obtain ⟨hya, hya', hyb, hyb', hyc, hyc', hyd, hyd', hye, hye', hyf, hyf'⟩ := hy
  have hflag : (Demo28.addHead x y).2.2 = false := by
    simp only [Demo28.addHead, Bool.or_eq_false_iff, decide_eq_false_iff_not, not_lt]
    omega
  have hstep : ∀ s o : Int, s < 5 → o < 5 → (Demo28.addStep s o).1 = s + o := by
    intro s o hs ho
    unfold Demo28.addStep
    rw [if_neg (by omega)]
  have heq : Demo28.add x chain y = ((Demo28.addHead x y).1, chain) := by
    unfold Demo28.add
    cases chain <;> simp only [hflag, Bool.false_eq_true, if_false]
  rw [heq]
  refine ⟨⟨?_, ?_, ?_, ?_, ?_, ?_⟩, rfl⟩ <;>
    simp only [Demo28.addHead] <;>
    rw [hstep _ _ (by omega) (by omega)] <;> omega

/-- C7 witness: the theorem applied to two concrete cells with all
coefficients in the range 0..4. -/
theorem C7_witness :
    ((⟨0, 0, 4, 4, 4, 4, 4, 4, none, none, none, none, none⟩ : QuantumNumberV8).a < 5 ∧
     (0:Int) ≤ 4) ∧
    ((Demo28.add ⟨0, 0, 4, 4, 4, 4, 4, 4, none, none, none, none, none⟩ []
        ⟨0, 0, 4, 4, 4, 4, 4, 4, none, none, none, none, none⟩).1.a < 10 ∧
     (Demo28.add ⟨0, 0, 4, 4, 4, 4, 4, 4, none, none, none, none, none⟩ []
        ⟨0, 0, 4, 4, 4, 4, 4, 4, none, none, none, none, none⟩).2 = []) :=
  ⟨by decide,
   ((C7_theorem ⟨0, 0, 4, 4, 4, 4, 4, 4, none, none, none, none, none⟩
      ⟨0, 0, 4, 4, 4, 4, 4, 4, none, none, none, none, none⟩ [] (by decide) (by decide)).1.1),
   ((C7_theorem ⟨0, 0, 4, 4, 4, 4, 4, 4, none, none, none, none, none⟩
      ⟨0, 0, 4, 4, 4, 4, 4, 4, none, none, none, none, none⟩ [] (by decide) (by decide)).2)⟩

/-- C9 counterexample: `Demo28.add` never touches the metadata counter —
on two fresh cells the counter stays 0 and does not strictly increase. -/
theorem C9_counterexample :
    (Demo28.add mkCell [] mkCell).1.metadata = mkCell.metadata ∧
    ¬ (mkCell.metadata < (Demo28.add mkCell [] mkCell).1.metadata) := by
  decide

/-- C9 (amended): `multiply` and `divide` of Demo7 increment the metadata
counter by exactly 1; Demo7's `relu_activation` increments it exactly when
it rewrites a negative `a`; `add` and `scale_by_int` of Demo28 and `relu`
of Demo17 leave it unchanged — no operation ever decrements it. -/
theorem C9_theorem :
    (∀ (x : QuantumNumberV8) (chain : List QuantumNumberV8) (y : QuantumNumberV8),
        (Demo28.add x chain y).1.metadata = x.metadata) ∧
    (∀ (x : QuantumNumberV8) (chain : List QuantumNumberV8) (k : Int),
        (Demo28.scale_by_int x chain k).1.metadata = x.metadata) ∧
    (∀ (q : QuantumNumberV8) (k : Int) (fl : Bool),
        (Demo7.multiply q k fl).metadata = q.metadata + 1) ∧
    (∀ (q : QuantumNumberV8) (k : Int) (fl : Bool),
        (Demo7.divide q k fl).metadata = q.metadata + 1) ∧
    (∀ q : QuantumNumberV8, (Demo7.relu_activation q).metadata =
        if q.signs % 2 = 1 then q.metadata + 1 else q.metadata) ∧
    (∀ q : QuantumNumberV8, (Demo17.relu q).metadata = q.metadata) := by
  refine ⟨?_, ?_, ?_, ?_, ?_, ?_⟩
  · intro x chain y
    rw [add_fst]
    rfl
  · intro x chain k
    rw [scale_fst]
    rfl
  · intro q k fl
    rfl
  · intro q k fl
    rfl
  · intro q
    unfold Demo7.relu_activation
    split <;> rename_i h <;> simp [h]
  · intro q
    unfold Demo17.relu
    split <;> rfl

/-- C10 (confirmed): `add` never modifies the operand cell (the method
body writes only to `self` and to the fresh carry cell), and on `self` it
modifies only the six coefficient fields and the left chain — signs,
metadata and the `right`, `up`, `down`, `in_`, `out` links are kept. -/
theorem C10_theorem :
    (∀ (x : QuantumNumberV8) (xchain : List QuantumNumberV8)
        (y : QuantumNumberV8) (ychain : List QuantumNumberV8),
        (Demo28.addPair x xchain y ychain).2 = (y, ychain)) ∧
    (∀ (x : QuantumNumberV8) (chain : List QuantumNumberV8) (y : QuantumNumberV8),
        (Demo28.add x chain y).1.signs = x.signs ∧
        (Demo28.add x chain y).1.metadata = x.metadata ∧
        (Demo28.add x chain y).1.right = x.right ∧
        (Demo28.add x chain y).1.up = x.up ∧
        (Demo28.add x chain y).1.down = x.down ∧
        (Demo28.add x chain y).1.in_ = x.in_ ∧
        (Demo28.add x chain y).1.out = x.out) := by
  refine ⟨fun _ _ _ _ => rfl, fun x chain y => ?_⟩
  rw [add_fst]
  exact ⟨rfl, rfl, rfl, rfl, rfl, rfl, rfl⟩

/-- C8 counterexample: `Demo6.divide` with a negative divisor (and the
default `sign_flip=False`) toggles no sign bit at all, where the claim
demands that exactly bits 1 and 4 (mask 18) flip. -/
theorem C8_counterexample :
    (Demo6.divide mkCell (-3) false).signs ≠ Nat.xor mkCell.signs 18 := by
  decide

/-- C8 (amended): `Demo5.multiply_by` with a negative scalar toggles
exactly sign bits 0 and 3 (mask 9) and `Demo5.divide_by` with a negative
divisor toggles exactly bits 1 and 4 (mask 18), leaving all other bits
unchanged; `Demo6.multiply`/`Demo6.divide` ignore the argument's sign and
instead toggle bit 0 (mask 1) respectively bit 3 (mask 8) exactly when
the explicit `sign_flip` flag is set. -/
theorem C8_theorem :
    (∀ (q : QuantumNumberV8) (k : Int), k < 0 →
        (Demo5.multiply_by q k).signs = Nat.xor q.signs 9 ∧
        (Demo5.divide_by q k).signs = Nat.xor q.signs 18) ∧
    (∀ (q : QuantumNumberV8) (k : Int) (fl : Bool),
        (Demo6.multiply q k fl).signs = (if fl then Nat.xor q.signs 1 else q.signs) ∧
        (Demo6.divide q k fl).signs = (if fl then Nat.xor q.signs 8 else q.signs)) := by
  constructor
  · intro q k hk
    constructor
    · unfold Demo5.multiply_by Demo5.toggle_sign_bit
      rw [if_pos hk]
      show q.signs ^^^ 1 ^^^ 8 = q.signs ^^^ 9
      rw [Nat.xor_assoc]
      norm_num
      decide
    · unfold Demo5.divide_by Demo5.toggle_sign_bit
      rw [if_pos hk]
      show q.signs ^^^ 2 ^^^ 16 = q.signs ^^^ 18
      rw [Nat.xor_assoc]
      norm_num
      decide
  · intro q k fl
    exact ⟨rfl, rfl⟩

section ReconLemmas

open Demo28

/-- A field whose sum stays at the threshold or below produces carry 0. -/
theorem addStep_snd_zero {s o : Int} (h : ¬ (s + o > 10)) : (addStep s o).2 = 0 := by
  unfold addStep
  rw [if_neg h]

/-- A field whose product stays at the threshold or below produces carry 0. -/
theorem scaleStep_snd_zero {s k : Int} (h : ¬ (s * k > 10)) : (scaleStep s k).2 = 0 := by
  unfold scaleStep
  rw [if_neg h]

/-- When the add carry flag is clear, no field exceeded the threshold. -/
theorem addFlag_false {x y : QuantumNumberV8} (hf : (addHead x y).2.2 = false) :
    ¬ (x.a + y.a > 10) ∧ ¬ (x.b + y.b > 10) ∧ ¬ (x.c + y.c > 10) ∧
    ¬ (x.d + y.d > 10) ∧ ¬ (x.e + y.e > 10) ∧ ¬ (x.f + y.f > 10) := by
  simpa [addHead, Bool.or_eq_false_iff, decide_eq_false_iff_not, and_assoc] using hf

/-- When the scale carry flag is clear, no field exceeded the threshold. -/
theorem scaleFlag_false {x : QuantumNumberV8} {k : Int} (hf : scaleFlag x k = false) :
    ¬ (x.a * k > 10) ∧ ¬ (x.b * k > 10) ∧ ¬ (x.c * k > 10) ∧
    ¬ (x.d * k > 10) ∧ ¬ (x.e * k > 10) ∧ ¬ (x.f * k > 10) := by
  simpa [scaleFlag, Bool.or_eq_false_iff, decide_eq_false_iff_not, and_assoc] using hf

/-- Per-coefficient carry correctness of `add`: for any selector that
commutes with the field loop (all six coefficient selectors do), the
mixed-radix reconstruction after `add` is the reconstruction before plus
the operand's field. -/
theorem recon_add (g : QuantumNumberV8 → Int)
    (h1 : ∀ x y : QuantumNumberV8, g (addHead x y).1 = (addStep (g x) (g y)).1)
    (h2 : ∀ x y : QuantumNumberV8, g (addHead x y).2.1 = (addStep (g x) (g y)).2)
    (h3 : ∀ x y : QuantumNumberV8, (addHead x y).2.2 = false → (addStep (g x) (g y)).2 = 0) :
    ∀ (chain : List QuantumNumberV8) (x y : QuantumNumberV8),
      recon g ((add x chain y).1 :: (add x chain y).2) = recon g (x :: chain) + g y := by
  intro chain
  induction chain with
  | nil =>
    intro x y
    cases hf : (addHead x y).2.2
    case false =>
      have heq : add x [] y = ((addHead x y).1, []) := by
        unfold add
        simp [hf]
      rw [heq]
      simp only [recon]
      rw [h1]
      have hd := addStep_decomp (g x) (g y)
      have h0 := h3 x y hf
      omega
    case true =>
      have heq : add x [] y = ((addHead x y).1, [(addHead x y).2.1]) := by
        unfold add
        simp [hf]
      rw [heq]
      simp only [recon]
      rw [h1, h2]
      have hd := addStep_decomp (g x) (g y)
      omega
  | cons l rest ih =>
    intro x y
    cases hf : (addHead x y).2.2
    case false =>
      have heq : add x (l :: rest) y = ((addHead x y).1, l :: rest) := by
        unfold add
        simp [hf]
      rw [heq]
      simp only [recon]
      rw [h1]
      have hd := addStep_decomp (g x) (g y)
      have h0 := h3 x y hf
      omega
    case true =>
      have heq : add x (l :: rest) y =
          if (addHead x y).2.2 then
            ((addHead x y).1,
             (add l rest (addHead x y).2.1).1 :: (add l rest (addHead x y).2.1).2)
          else ((addHead x y).1, l :: rest) := rfl
      rw [heq, if_pos hf]
      have ihc := ih l ((addHead x y).2.1)
      simp only [recon] at ihc ⊢
      rw [h2] at ihc
      rw [h1]
      have hd := addStep_decomp (g x) (g y)
      omega

/-- Per-coefficient behaviour of `scale_by_int`: when the prior left chain
reconstructs to 0 in the selected field, the reconstruction after scaling
is the scalar times the reconstruction before.  (With a nonzero chain the
chain part is left unscaled, so this is the best obtainable bound.) -/
theorem recon_scale (g : QuantumNumberV8 → Int)
    (h1 : ∀ x y : QuantumNumberV8, g (addHead x y).1 = (addStep (g x) (g y)).1)
    (h2 : ∀ x y : QuantumNumberV8, g (addHead x y).2.1 = (addStep (g x) (g y)).2)
    (h3 : ∀ x y : QuantumNumberV8, (addHead x y).2.2 = false → (addStep (g x) (g y)).2 = 0)
    (hs1 : ∀ (x : QuantumNumberV8) (k : Int), g (scaleHead x k) = (scaleStep (g x) k).1)
    (hs2 : ∀ (x : QuantumNumberV8) (k : Int), g (scaleCarry x k) = (scaleStep (g x) k).2)
    (hs3 : ∀ (x : QuantumNumberV8) (k : Int), scaleFlag x k = false →
        (scaleStep (g x) k).2 = 0) :
    ∀ (chain : List QuantumNumberV8) (x : QuantumNumberV8) (k : Int),
      recon g chain = 0 →
      recon g ((scale_by_int x chain k).1 :: (scale_by_int x chain k).2)
        = k * recon g (x :: chain) := by
  intro chain x k hchain
  cases hf : scaleFlag x k
  case false =>
    have heq : scale_by_int x chain k = (scaleHead x k, chain) := by
      unfold scale_by_int
      cases chain <;> simp [hf]
    rw [heq]
    simp only [recon]
    rw [hs1, hchain]
    have hd := scaleStep_decomp (g x) k
    have h0 := hs3 x k hf
    linear_combination hd - 10 * h0
  case true =>
    cases chain with
    | nil =>
      have heq : scale_by_int x [] k = (scaleHead x k, [scaleCarry x k]) := by
        unfold scale_by_int
        simp [hf]
      rw [heq]
      simp only [recon]
      rw [hs1, hs2]
      have hd := scaleStep_decomp (g x) k
      linear_combination hd
    | cons l rest =>
      have heq : scale_by_int x (l :: rest) k =
          (scaleHead x k,
           (add l rest (scaleCarry x k)).1 :: (add l rest (scaleCarry x k)).2) := by
        unfold scale_by_int
        simp [hf]
      rw [heq]
      have hadd := recon_add g h1 h2 h3 rest l (scaleCarry x k)
      simp only [recon] at hadd hchain ⊢
      rw [hs2] at hadd
      have hd := scaleStep_decomp (g x) k
      rw [hs1, hadd, hchain]
      linear_combination hd

end ReconLemmas

/-- C2 counterexample: scaling the cell `a = 3` carrying the chain cell
`a = 1` (value 13) by 2 yields reconstruction 16, not the exact product
26 — `scale_by_int` leaves the pre-existing carry chain unscaled. -/
theorem C2_counterexample :
    Demo28.recon (fun q => q.a)
        ((Demo28.scale_by_int { mkCell with a := 3 } [{ mkCell with a := 1 }] 2).1 ::
         (Demo28.scale_by_int { mkCell with a := 3 } [{ mkCell with a := 1 }] 2).2) = 16 ∧
    2 * Demo28.recon (fun q => q.a)
        ({ mkCell with a := 3 } :: [{ mkCell with a := 1 }]) = 26 ∧
    (16 : Int) ≠ 26 := by
  decide

/-- C2 (amended): `add` never drops overflow — for every coefficient
field, cell and chain, the mixed-radix reconstruction after `add` equals
the reconstruction before plus the operand's field.  `scale_by_int`
multiplies the reconstruction by the scalar only when the prior left
chain reconstructs to 0 in that field (in particular when there is no
chain); a nonzero chain is left unscaled. -/
theorem C2_theorem :
    (∀ g ∈ Demo28.selectors, ∀ (x : QuantumNumberV8) (chain : List QuantumNumberV8)
        (y : QuantumNumberV8),
        Demo28.recon g ((Demo28.add x chain y).1 :: (Demo28.add x chain y).2)
          = Demo28.recon g (x :: chain) + g y) ∧
    (∀ g ∈ Demo28.selectors, ∀ (x : QuantumNumberV8) (chain : List QuantumNumberV8)
        (k : Int), Demo28.recon g chain = 0 →
        Demo28.recon g ((Demo28.scale_by_int x chain k).1 :: (Demo28.scale_by_int x chain k).2)
          = k * Demo28.recon g (x :: chain)) := by
  constructor
  · intro g hg x chain y
    have hG : g = (fun q => q.a) ∨ g = (fun q => q.b) ∨ g = (fun q => q.c) ∨
        g = (fun q => q.d) ∨ g = (fun q => q.e) ∨ g = (fun q => q.f) := by
      simpa [Demo28.selectors] using hg
    rcases hG with rfl | rfl | rfl | rfl | rfl | rfl
    · exact recon_add _ (fun _ _ => rfl) (fun _ _ => rfl)
        (fun x y hf => addStep_snd_zero (addFlag_false hf).1) chain x y
    · exact recon_add _ (fun _ _ => rfl) (fun _ _ => rfl)
        (fun x y hf => addStep_snd_zero (addFlag_false hf).2.1) chain x y
    · exact recon_add _ (fun _ _ => rfl) (fun _ _ => rfl)
        (fun x y hf => addStep_snd_zero (addFlag_false hf).2.2.1) chain x y
    · exact recon_add _ (fun _ _ => rfl) (fun _ _ => rfl)
        (fun x y hf => addStep_snd_zero (addFlag_false hf).2.2.2.1) chain x y
    · exact recon_add _ (fun _ _ => rfl) (fun _ _ => rfl)
        (fun x y hf => addStep_snd_zero (addFlag_false hf).2.2.2.2.1) chain x y
    · exact recon_add _ (fun _ _ => rfl) (fun _ _ => rfl)
        (fun x y hf => addStep_snd_zero (addFlag_false hf).2.2.2.2.2) chain x y
  · intro g hg x chain k hchain
    have hG : g = (fun q => q.a) ∨ g = (fun q => q.b) ∨ g = (fun q => q.c) ∨
        g = (fun q => q.d) ∨ g = (fun q => q.e) ∨ g = (fun q => q.f) := by
      simpa [Demo28.selectors] using hg
    rcases hG with rfl | rfl | rfl | rfl | rfl | rfl
    · exact recon_scale _ (fun _ _ => rfl) (fun _ _ => rfl)
        (fun x y hf => addStep_snd_zero (addFlag_false hf).1)
        (fun _ _ => rfl) (fun _ _ => rfl)
        (fun x k hf => scaleStep_snd_zero (scaleFlag_false hf).1) chain x k hchain
    · exact recon_scale _ (fun _ _ => rfl) (fun _ _ => rfl)
        (fun x y hf => addStep_snd_zero (addFlag_false hf).2.1)
        (fun _ _ => rfl) (fun _ _ => rfl)
        (fun x k hf => scaleStep_snd_zero (scaleFlag_false hf).2.1) chain x k hchain
    · exact recon_scale _ (fun _ _ => rfl) (fun _ _ => rfl)
        (fun x y hf => addStep_snd_zero (addFlag_false hf).2.2.1)
        (fun _ _ => rfl) (fun _ _ => rfl)
        (fun x k hf => scaleStep_snd_zero (scaleFlag_false hf).2.2.1) chain x k hchain
    · exact recon_scale _ (fun _ _ => rfl) (fun _ _ => rfl)
        (fun x y hf => addStep_snd_zero (addFlag_false hf).2.2.2.1)
        (fun _ _ => rfl) (fun _ _ => rfl)
        (fun x k hf => scaleStep_snd_zero (scaleFlag_false hf).2.2.2.1) chain x k hchain
    · exact recon_scale _ (fun _ _ => rfl) (fun _ _ => rfl)
        (fun x y hf => addStep_snd_zero (addFlag_false hf).2.2.2.2.1)
        (fun _ _ => rfl) (fun _ _ => rfl)
        (fun x k hf => scaleStep_snd_zero (scaleFlag_false hf).2.2.2.2.1) chain x k hchain
    · exact recon_scale _ (fun _ _ => rfl) (fun _ _ => rfl)
        (fun x y hf => addStep_snd_zero (addFlag_false hf).2.2.2.2.2)
        (fun _ _ => rfl) (fun _ _ => rfl)
        (fun x k hf => scaleStep_snd_zero (scaleFlag_false hf).2.2.2.2.2) chain x k hchain

/-- C2 witness: the amended theorem applied at concrete cells — an `add`
of the operand field 7 into a cell reconstructing 16 (head 6, chain cell
1), and a chain-free scale of the cell 4 by the scalar 3. -/
theorem C2_witness :
    ((fun (q : QuantumNumberV8) => q.a) ∈ Demo28.selectors ∧
     Demo28.recon (fun q => q.a) ([] : List QuantumNumberV8) = 0) ∧
    Demo28.recon (fun q => q.a)
        ((Demo28.add { mkCell with a := 6 } [{ mkCell with a := 1 }] { mkCell with a := 7 }).1 ::
         (Demo28.add { mkCell with a := 6 } [{ mkCell with a := 1 }] { mkCell with a := 7 }).2)
      = Demo28.recon (fun q => q.a) ({ mkCell with a := 6 } :: [{ mkCell with a := 1 }]) + 7 ∧
    Demo28.recon (fun q => q.a)
        ((Demo28.scale_by_int { mkCell with a := 4 } [] 3).1 ::
         (Demo28.scale_by_int { mkCell with a := 4 } [] 3).2)
      = 3 * Demo28.recon (fun q => q.a) ({ mkCell with a := 4 } :: []) :=
  ⟨⟨by simp [Demo28.selectors], rfl⟩,
   C2_theorem.1 (fun q => q.a) (by simp [Demo28.selectors])
     { mkCell with a := 6 } [{ mkCell with a := 1 }] { mkCell with a := 7 },
   C2_theorem.2 (fun q => q.a) (by simp [Demo28.selectors])
     { mkCell with a := 4 } [] 3 rfl⟩

section Demo24Lemmas

open Demo24

/-- The digit list that `QuantumNumber.add` rebuilds for a nonzero value
already has a nonzero most significant digit, so `_normalize` leaves it
(and the sign) alone. -/
theorem normalize_digits (s : Int) {n : Nat} (hn : n ≠ 0) :
    Demo24.normalize ⟨10, s, Nat.digits 10 n⟩ = ⟨10, s, Nat.digits 10 n⟩ := by
  have hne : Nat.digits 10 n ≠ [] := Nat.digits_ne_nil_iff_ne_zero.mpr hn
  have hlast := Nat.getLast_digit_ne_zero 10 hn
  rcases List.eq_nil_or_concat (Nat.digits 10 n) with h | ⟨L, d, h⟩
  · exact absurd h hne
  · rw [List.concat_eq_append] at h
    have h1 : (Nat.digits 10 n).getLast? = some d := by
      rw [h]
      exact List.getLast?_concat L
    have hd : d ≠ 0 := by
      have h2 := List.getLast?_eq_getLast (Nat.digits 10 n) hne
      rw [h1] at h2
      rw [Option.some.inj h2]
      exact hlast
    have hpop : popZerosRev (L ++ [d]).reverse = (L ++ [d]).reverse := by
      rw [List.reverse_append, List.reverse_singleton, List.singleton_append]
      unfold popZerosRev
      rw [if_neg (by simp [hd])]
    have hnot : L ++ [d] ≠ [0] := by
      intro hc
      have h4 : (L ++ [d]).getLast? = some d := List.getLast?_concat L
      rw [hc] at h4
      simp only [List.getLast?_singleton, Option.some.injEq] at h4
      exact hd h4.symm
    unfold Demo24.normalize
    dsimp only
    rw [h, hpop, List.reverse_reverse, if_neg hnot]

/-- `QuantumNumber([], base).add(t)` represents exactly `t`: the empty
digit list evaluates to 0 and the rebuilt digit list round-trips through
`Nat.digits`. -/
theorem add_empty_to_int (t : Int) :
    (Demo24.QuantumNumber.add ⟨10, 1, []⟩ t).to_int = t := by
  by_cases ht : t = 0
  · subst ht
    rfl
  · unfold Demo24.QuantumNumber.add
    rw [if_neg ht]
    have hz : (⟨10, 1, []⟩ : Demo24.QuantumNumber).to_int = 0 := by
      simp [Demo24.QuantumNumber.to_int, Nat.ofDigits]
    rw [hz, zero_add]
    have habs : t.natAbs ≠ 0 := by
      simpa [Int.natAbs_eq_zero] using ht
    rw [if_neg habs, normalize_digits _ habs]
    simp only [Demo24.QuantumNumber.to_int, Nat.ofDigits_digits]
    split_ifs <;> omega

/-- Accumulating unit weights over a key list is plain summation. -/
theorem foldl_unit_weights (w : String → Int) (f : String → Int) :
    ∀ (l : List String), (∀ i ∈ l, w i = 1) → ∀ c : Int,
      l.foldl (fun t i => t + w i * f i) c = c + (l.map f).sum := by
  intro l
  induction l with
  | nil => intro _ c; simp
  | cons i rest ih =>
    intro hw c
    have hwi : w i = 1 := hw i (List.mem_cons_self i rest)
    simp only [List.foldl_cons, List.map_cons, List.sum_cons]
    rw [hwi, one_mul, ih (fun j hj => hw j (List.mem_cons_of_mem i hj))]
    ring

end Demo24Lemmas

section Demo28ForwardLemmas

open Demo28

/-- Carry correctness of `add` specialised to the `a` coefficient. -/
theorem recon_a_add (x : QuantumNumberV8) (chain : List QuantumNumberV8)
    (y : QuantumNumberV8) :
    recon (fun q => q.a) ((add x chain y).1 :: (add x chain y).2)
      = recon (fun q => q.a) (x :: chain) + y.a :=
  recon_add _ (fun _ _ => rfl) (fun _ _ => rfl)
    (fun _ _ hf => addStep_snd_zero (addFlag_false hf).1) chain x y

/-- The accumulation loop of Demo28's `forward`: with unit `a` weights
and every input value at most 10, each scaled temporary cell contributes
exactly its input value to the `a` reconstruction of the running sum
(above 10 the temporary cell's carry chain would be dropped by the
head-only `add`). -/
theorem foldl_recon_sum (L : QuantumLayer) (o : String) (input : String → Option Int) :
    ∀ l : List String, (∀ i ∈ l, (L.weights o i).1.a = 1 ∧ (input i).getD 0 ≤ 10) →
    ∀ s : CellChain,
      recon (fun q => q.a)
        ((List.foldl (fun sum i =>
            add sum.1 sum.2
              (scale_by_int (copyFields (L.weights o i).1) [] ((input i).getD 0)).1) s l).1 ::
         (List.foldl (fun sum i =>
            add sum.1 sum.2
              (scale_by_int (copyFields (L.weights o i).1) [] ((input i).getD 0)).1) s l).2)
      = recon (fun q => q.a) (s.1 :: s.2) + (l.map (fun i => (input i).getD 0)).sum := by
  intro l
  induction l with
  | nil =>
    intro _ s
    simp
  | cons i rest ih =>
    intro hl s
    obtain ⟨hw, hv⟩ := hl i (List.mem_cons_self i rest)
    simp only [List.foldl_cons, List.map_cons, List.sum_cons]
    rw [ih (fun j hj => hl j (List.mem_cons_of_mem i hj)), recon_a_add]
    have htmp : (scale_by_int (copyFields (L.weights o i).1) [] ((input i).getD 0)).1.a
        = (input i).getD 0 := by
      rw [scale_fst]
      show (scaleStep (L.weights o i).1.a ((input i).getD 0)).1 = (input i).getD 0
      rw [hw, scaleStep_fst, one_mul, if_neg (by omega)]
    rw [htmp]
    ring

end Demo28ForwardLemmas

/-- C4 counterexample: on Demo28's `QuantumLayer` with unit weight, zero
bias and no modulus anywhere on the forward path, the input value 11
produces an output whose full `a` reconstruction is 1, not the plain sum
11 — `scale_by_int` pushes the overflow into the temporary cell's left
chain, which the head-only `add` into the accumulator then drops. -/
theorem C4_counterexample :
    Demo28.recon (fun q => q.a)
        ((Scenario3.layer0.forward (fun k => if k = "i" then some 11 else none) "o").1 ::
         (Scenario3.layer0.forward (fun k => if k = "i" then some 11 else none) "o").2) = 1 ∧
    (Scenario3.layer0.inputs.map
        (fun i => ((fun k => if k = "i" then some 11 else none) i).getD 0)).sum = 11 ∧
    (1 : Int) ≠ 11 := by
  decide

/-- C4 (amended): with all weights 1, all biases 0 and no modulus, the
Demo24 layer's `forward` represents, for every configured output key,
exactly the plain sum of `input[k]` over the configured input keys
(missing keys read as 0 by `dict.get`); the Demo28 layer's `forward`
satisfies the plain-sum property, in `a`-coefficient mixed-radix
reconstruction, only when every input value is at most 10 — larger
inputs overflow inside the per-weight scaling and the temporary cell's
carry chain is dropped. -/
theorem C4_theorem :
    (∀ (L : Demo24.QuantumNumberLayer) (inp : String → Option Int),
        L.base = 10 →
        (∀ o ∈ L.output_keys, ∀ i ∈ L.input_keys, (L.weights o i).to_int = 1) →
        (∀ o ∈ L.output_keys, (L.biases o).to_int = 0) →
        ∀ o ∈ L.output_keys,
          (L.forward inp o).to_int = (L.input_keys.map (fun i => (inp i).getD 0)).sum) ∧
    (∀ (L : Demo28.QuantumLayer) (input : String → Option Int) (o : String),
        (∀ i ∈ L.inputs, (L.weights o i).1.a = 1 ∧ (input i).getD 0 ≤ 10) →
        (L.biases o).1.a = 0 →
        Demo28.recon (fun q => q.a)
            ((L.forward input o).1 :: (L.forward input o).2)
          = (L.inputs.map (fun i => (input i).getD 0)).sum) := by
  constructor
  · intro L inp hbase hw hb o ho
    unfold Demo24.QuantumNumberLayer.forward
    rw [foldl_unit_weights (fun i => (L.weights o i).to_int) (fun i => (inp i).getD 0)
          L.input_keys (hw o ho) ((L.biases o).to_int),
        hb o ho, zero_add, hbase]
    exact add_empty_to_int _
  · intro L input o hw hb
    simp only [Demo28.QuantumLayer.forward]
    rw [recon_a_add, hb, add_zero, foldl_recon_sum L o input L.inputs hw (mkCell, [])]
    simp [Demo28.recon, mkCell]

/-- C4 witness: the Demo24 conjunct applied to the demo key sets with
unit weights, zero biases and the input a=6, b=7, c=30 (plain sum 43 on
output x), and the Demo28 conjunct applied to the single-key layer with
input value 7. -/
theorem C4_witness :
    (((⟨10, ["a", "b", "c"], ["x", "y"], fun _ _ => ⟨10, 1, [1]⟩, fun _ => ⟨10, 1, [0]⟩⟩ :
        Demo24.QuantumNumberLayer).base = 10) ∧ ("x" ∈ (["x", "y"] : List String)) ∧
      ((7 : Int) ≤ 10)) ∧
    ((⟨10, ["a", "b", "c"], ["x", "y"], fun _ _ => ⟨10, 1, [1]⟩, fun _ => ⟨10, 1, [0]⟩⟩ :
        Demo24.QuantumNumberLayer).forward
      (fun k => if k = "a" then some 6 else if k = "b" then some 7 else
                if k = "c" then some 30 else none) "x").to_int = 43 ∧
    Demo28.recon (fun q => q.a)
        ((Scenario3.layer0.forward (fun k => if k = "i" then some 7 else none) "o").1 ::
         (Scenario3.layer0.forward (fun k => if k = "i" then some 7 else none) "o").2)
      = (Scenario3.layer0.inputs.map
          (fun i => ((fun k => if k = "i" then some 7 else none) i).getD 0)).sum := by
  refine ⟨⟨rfl, by decide, by norm_num⟩, ?_, ?_⟩
  · have h := C4_theorem.1
      ⟨10, ["a", "b", "c"], ["x", "y"], fun _ _ => ⟨10, 1, [1]⟩, fun _ => ⟨10, 1, [0]⟩⟩
      (fun k => if k = "a" then some 6 else if k = "b" then some 7 else
                if k = "c" then some 30 else none)
      rfl (by intro o _ i _; rfl) (by intro o _; rfl) "x" (by decide)
    rw [h]
    rfl
  · refine C4_theorem.2 Scenario3.layer0 (fun k => if k = "i" then some 7 else none) "o"
      ?_ rfl
    intro i hi
    have hii : i = "i" := by simpa [Scenario3.layer0] using hi
    subst hii
    exact ⟨rfl, by decide⟩

section Demo23Lemmas

open Demo23

/-- When some configured input key is missing from the caller's mapping,
the accumulation loop of Demo23's `forward` raises a `KeyError` whatever
the running total is. -/
theorem forwardTotal_error (L : Demo23.QuantumNumberLayer) (inp : String → Option Int)
    (o : String) :
    ∀ l : List String, (∃ i ∈ l, inp i = none) → ∀ t : Int,
      ∃ m, forwardTotal L inp o l t = .error m := by
  intro l
  induction l with
  | nil =>
    rintro ⟨i, hi, _⟩
    exact absurd hi (List.not_mem_nil i)
  | cons i rest ih =>
    rintro ⟨j, hj, hnone⟩ t
    cases hinp : inp i with
    | none => exact ⟨keyError i, by simp [forwardTotal, hinp]⟩
    | some v =>
      rcases List.mem_cons.mp hj with rfl | hjr
      · exact absurd hinp (by simp [hnone])
      · have := ih ⟨j, hjr, hnone⟩ (t + L.weights o i * v)
        simpa [forwardTotal, hinp] using this

end Demo23Lemmas

/-- C5 counterexample: calling Demo23's `backward` with the configured
input key `b` absent from the input mapping raises a `KeyError`, yet the
bias of output `x` has already been mutated from 0 to 2 (and the weight
for `a` from 1 to 3) — the partial mutation is committed, contradicting
the claimed no-partial-mutation guarantee. -/
theorem C5_counterexample :
    (Scenario5.layer0.backward Scenario5.inp Scenario5.tgt Scenario5.outv 1).2.isSome = true ∧
    (Scenario5.layer0.backward Scenario5.inp Scenario5.tgt Scenario5.outv 1).1.biases "x" = 2 ∧
    Scenario5.layer0.biases "x" = 0 ∧ (2 : Int) ≠ 0 := by
  decide

/-- C5 (amended): Demo24's `forward` never fails — configured keys
missing from the input mapping are read as value 0, and the result
depends only on the configured input keys (extra unknown keys are
ignored); Demo23's `forward` raises a `KeyError` when a configured input
key is missing from the mapping (given any configured output); Demo23's
`backward` raises likewise but first commits the bias and earlier weight
updates of the output key being processed — the partial mutation is not
rolled back. -/
theorem C5_theorem :
    (∀ (L : Demo24.QuantumNumberLayer) (inp : String → Option Int) (o : String),
        L.forward inp o = L.forward (fun i => some ((inp i).getD 0)) o) ∧
    (∀ (L : Demo24.QuantumNumberLayer) (inp inp' : String → Option Int) (o : String),
        (∀ i ∈ L.input_keys, inp i = inp' i) → L.forward inp o = L.forward inp' o) ∧
    (∀ (L : Demo23.QuantumNumberLayer) (inp : String → Option Int),
        (∃ i ∈ L.input_keys, inp i = none) → L.output_keys ≠ [] →
        ∃ m, L.forward inp = .error m) ∧
    ((Scenario5.layer0.backward Scenario5.inp Scenario5.tgt Scenario5.outv 1).2
        = some (Demo23.keyError "b") ∧
     (Scenario5.layer0.backward Scenario5.inp Scenario5.tgt Scenario5.outv 1).1.weights "x" "a"
        = 3 ∧
     (Scenario5.layer0.backward Scenario5.inp Scenario5.tgt Scenario5.outv 1).1.biases "x"
        = 2) := by
  refine ⟨?_, ?_, ?_, by decide, by decide, by decide⟩
  · intro L inp o
    rfl
  · intro L inp inp' o h
    unfold Demo24.QuantumNumberLayer.forward
    have : ∀ (l : List String), (∀ i ∈ l, inp i = inp' i) → ∀ c : Int,
        l.foldl (fun t i => t + (L.weights o i).to_int * (inp i).getD 0) c
          = l.foldl (fun t i => t + (L.weights o i).to_int * (inp' i).getD 0) c := by
      intro l
      induction l with
      | nil => intro _ c; rfl
      | cons i rest ih =>
        intro hl c
        simp only [List.foldl_cons]
        rw [hl i (List.mem_cons_self i rest), ih (fun j hj => hl j (List.mem_cons_of_mem i hj))]
    rw [this L.input_keys h]
  · intro L inp hex hout
    rcases houts : L.output_keys with _ | ⟨o, os⟩
    · exact absurd houts hout
    · obtain ⟨m, hm⟩ := forwardTotal_error L inp o L.input_keys hex (L.biases o)
      refine ⟨m, ?_⟩
      unfold Demo23.QuantumNumberLayer.forward
      rw [houts]
      simp only [List.foldlM_cons, Demo23.forwardEntry, hm]
      rfl

/-- C5 witness: the amended theorem applied at concrete instances — an
input mapping that omits the configured key `b` of the Scenario5 layer. -/
theorem C5_witness :
    (("b" ∈ Scenario5.layer0.input_keys ∧ Scenario5.inp "b" = none) ∧
     Scenario5.layer0.output_keys ≠ []) ∧
    (∃ m, Scenario5.layer0.forward Scenario5.inp = .error m) :=
  ⟨⟨⟨by decide, by decide⟩, by decide⟩,
   C5_theorem.2.2.1 Scenario5.layer0 Scenario5.inp
     ⟨"b", by decide, by decide⟩ (by decide)⟩

section Scenario3Lemmas

open Demo28 Scenario3

/-- The forward output head of a scenario-shaped layer is the composite
`gOut` of the weight and bias heads: scale by the input 2, accumulate
into a zero cell, add the bias. -/
theorem forward_outA (w : String → String → CellChain) (b : String → CellChain) :
    ((QuantumLayer.forward ⟨["i"], ["o"], w, b⟩ Scenario3.inp) "o").1.a
      = gOut ((w "o" "i").1.a, (b "o").1.a) := by
  show (add (add mkCell [] (scale_by_int (copyFields (w "o" "i").1) [] 2).1).1
        (add mkCell [] (scale_by_int (copyFields (w "o" "i").1) [] 2).1).2
        (b "o").1).1.a = gOut ((w "o" "i").1.a, (b "o").1.a)
  rw [add_fst, add_fst, scale_fst]
  rfl

/-- One `train_step` on a scenario-shaped layer acts on the projected
weight/bias heads exactly as the pure recurrence `fStep`. -/
theorem step_proj (w : String → String → CellChain) (b : String → CellChain) (lr : Int) :
    proj (QuantumLayer.train_step ⟨["i"], ["o"], w, b⟩ Scenario3.inp Scenario3.tgt lr)
      = fStep lr (proj ⟨["i"], ["o"], w, b⟩) := by
  have he : Scenario3.tgt "o" -
      ((QuantumLayer.forward ⟨["i"], ["o"], w, b⟩ Scenario3.inp) "o").1.a
      = 10 - gOut ((w "o" "i").1.a, (b "o").1.a) := by
    rw [forward_outA]
    rfl
  show ((add (w "o" "i").1 (w "o" "i").2
          { mkCell with a := (Scenario3.tgt "o" -
              ((QuantumLayer.forward ⟨["i"], ["o"], w, b⟩ Scenario3.inp) "o").1.a) * 2 * lr }).1.a,
        (add (b "o").1 (b "o").2
          { mkCell with a := (Scenario3.tgt "o" -
              ((QuantumLayer.forward ⟨["i"], ["o"], w, b⟩ Scenario3.inp) "o").1.a) * lr }).1.a)
      = fStep lr (proj ⟨["i"], ["o"], w, b⟩)
  rw [he, add_fst, add_fst]
  rfl

/-- Every layer reached by repeated scenario `train_step`s keeps the
scenario key lists. -/
theorem steps_shape (lr : Int) :
    ∀ n : Nat, ∃ w b, steps lr n = (⟨["i"], ["o"], w, b⟩ : QuantumLayer) := by
  intro n
  induction n with
  | zero => exact ⟨_, _, rfl⟩
  | succ n ih =>
    obtain ⟨w, b, hw⟩ := ih
    refine ⟨(QuantumLayer.train_step ⟨["i"], ["o"], w, b⟩ Scenario3.inp Scenario3.tgt lr).weights,
            (QuantumLayer.train_step ⟨["i"], ["o"], w, b⟩ Scenario3.inp Scenario3.tgt lr).biases,
            ?_⟩
    show (steps lr n).train_step Scenario3.inp Scenario3.tgt lr = _
    rw [hw]
    rfl

/-- The projected weight/bias heads after `n` steps follow the pure
recurrence. -/
theorem proj_steps (lr : Int) : ∀ n : Nat, proj (steps lr n) = pSeq lr n := by
  intro n
  induction n with
  | zero => rfl
  | succ n ih =>
    obtain ⟨w, b, hw⟩ := steps_shape lr n
    show proj ((steps lr n).train_step Scenario3.inp Scenario3.tgt lr) = _
    rw [hw, step_proj, ← hw, ih]
    rfl

/-- The forward output at step `n` is `gOut` of the projected state. -/
theorem outA_eq (lr : Int) (n : Nat) : outA lr n = gOut (pSeq lr n) := by
  obtain ⟨w, b, hw⟩ := steps_shape lr n
  unfold outA
  rw [hw, forward_outA]
  have : proj (steps lr n) = pSeq lr n := proj_steps lr n
  rw [hw] at this
  exact congrArg gOut this

/-- Every invariant state produces the forward output head 2. -/
theorem inv_gOut (p : Int × Int) (h : Scenario3.Inv p) : gOut p = 2 := by
  obtain ⟨wa, ba⟩ := p
  obtain ⟨hpos, hcases⟩ := h
  replace hpos : 0 ≤ wa := hpos
  replace hcases : (wa % 5 = 1 ∧ (ba = 0 ∨ ba = 10)) ∨ (wa % 5 = 2 ∧ ba = 8) ∨
      (wa % 5 = 3 ∧ ba = 6) ∨ (wa % 5 = 4 ∧ ba = 4) ∨ (wa % 5 = 0 ∧ ba = 2) := hcases
  show (Demo28.addStep (Demo28.addStep 0 (Demo28.scaleStep wa 2).1).1 ba).1 = 2
  rw [scaleStep_fst, addStep_fst, addStep_fst]
  rcases hcases with ⟨h5, hb | hb⟩ | ⟨h5, hb⟩ | ⟨h5, hb⟩ | ⟨h5, hb⟩ | ⟨h5, hb⟩ <;>
    subst hb <;> split_ifs <;> omega

/-- The invariant is preserved by the learning-rate-1 step. -/
theorem inv_fStep (p : Int × Int) (h : Scenario3.Inv p) : Scenario3.Inv (fStep 1 p) := by
  have h2 := inv_gOut p h
  obtain ⟨wa, ba⟩ := p
  obtain ⟨hpos, hcases⟩ := h
  replace hpos : 0 ≤ wa := hpos
  replace hcases : (wa % 5 = 1 ∧ (ba = 0 ∨ ba = 10)) ∨ (wa % 5 = 2 ∧ ba = 8) ∨
      (wa % 5 = 3 ∧ ba = 6) ∨ (wa % 5 = 4 ∧ ba = 4) ∨ (wa % 5 = 0 ∧ ba = 2) := hcases
  show Scenario3.Inv ((Demo28.addStep wa ((10 - gOut (wa, ba)) * 2 * 1)).1,
                      (Demo28.addStep ba ((10 - gOut (wa, ba)) * 1)).1)
  rw [h2]
  have hA : (Demo28.addStep wa ((10 - 2) * 2 * 1)).1 = wa + 6 := by
    rw [addStep_fst]
    split_ifs <;> omega
  have hB : (Demo28.addStep ba ((10 - 2) * 1)).1 = if ba + 8 > 10 then ba - 2 else ba + 8 := by
    rw [addStep_fst]
    split_ifs <;> omega
  rw [hA, hB]
  constructor
  · show 0 ≤ wa + 6
    omega
  · show ((wa + 6) % 5 = 1 ∧ ((if ba + 8 > 10 then ba - 2 else ba + 8) = 0 ∨
          (if ba + 8 > 10 then ba - 2 else ba + 8) = 10)) ∨
        ((wa + 6) % 5 = 2 ∧ (if ba + 8 > 10 then ba - 2 else ba + 8) = 8) ∨
        ((wa + 6) % 5 = 3 ∧ (if ba + 8 > 10 then ba - 2 else ba + 8) = 6) ∨
        ((wa + 6) % 5 = 4 ∧ (if ba + 8 > 10 then ba - 2 else ba + 8) = 4) ∨
        ((wa + 6) % 5 = 0 ∧ (if ba + 8 > 10 then ba - 2 else ba + 8) = 2)
    rcases hcases with ⟨h5, hb | hb⟩ | ⟨h5, hb⟩ | ⟨h5, hb⟩ | ⟨h5, hb⟩ | ⟨h5, hb⟩ <;> subst hb
    · exact Or.inr (Or.inl ⟨by omega, by norm_num⟩)
    · exact Or.inr (Or.inl ⟨by omega, by norm_num⟩)
    · exact Or.inr (Or.inr (Or.inl ⟨by omega, by norm_num⟩))
    · exact Or.inr (Or.inr (Or.inr (Or.inl ⟨by omega, by norm_num⟩)))
    · exact Or.inr (Or.inr (Or.inr (Or.inr ⟨by omega, by norm_num⟩)))
    · exact Or.inl ⟨by omega, Or.inr (by norm_num)⟩

end Scenario3Lemmas

/-- C3 counterexample: the learning rate 0 satisfies the claimed
stability bound `lr * input^2 < 2`, yet the error sequence of the Demo28
layer on the scenario (input 2, target 10, weight 1, bias 0) is 8 at
both of the first two steps — it is not strictly monotonically
decreasing. -/
theorem C3_counterexample :
    ((0 : Int) * 2 ^ 2 < 2) ∧ Scenario3.errAbs 0 0 = 8 ∧ Scenario3.errAbs 0 1 = 8 ∧
    ¬ (Scenario3.errAbs 0 1 < Scenario3.errAbs 0 0) := by
  decide

/-- C3 (amended): on the Demo28 layer with input 2, target 10, initial
weight 1 and bias 0, the error magnitude `|target - output|` is the
constant 8 at every step both for learning rate 1 and for learning rate
0 (the only non-negative integer rate satisfying the claimed bound): the
forward head is clipped to 2 by the carry machinery, so the run neither
converges monotonically under the bound nor diverges at rate 1. -/
theorem C3_theorem :
    ∀ n : Nat, Scenario3.errAbs 1 n = 8 ∧ Scenario3.errAbs 0 n = 8 := by
  have hinv : ∀ n, Scenario3.Inv (Scenario3.pSeq 1 n) := by
    intro n
    induction n with
    | zero => exact ⟨by decide, Or.inl ⟨by decide, Or.inl (by decide)⟩⟩
    | succ n ih => exact inv_fStep _ ih
  have h0 : ∀ n, Scenario3.pSeq 0 n = (1, 0) := by
    intro n
    induction n with
    | zero => rfl
    | succ n ih =>
      show Scenario3.fStep 0 (Scenario3.pSeq 0 n) = (1, 0)
      rw [ih]
      decide
  intro n
  constructor
  · unfold Scenario3.errAbs
    rw [outA_eq, inv_gOut _ (hinv n)]
    rfl
  · unfold Scenario3.errAbs
    rw [outA_eq, h0 n]
    decide

/-- C8 witness: the amended theorem applied to a concrete cell and the
negative scalar -1. -/
theorem C8_witness :
    ((-1 : Int) < 0) ∧
    (Demo5.multiply_by { mkCell with signs := 5 } (-1)).signs = Nat.xor 5 9 ∧
    (Demo5.divide_by { mkCell with signs := 5 } (-1)).signs = Nat.xor 5 18 :=
  ⟨by norm_num,
   (C8_theorem.1 { mkCell with signs := 5 } (-1) (by norm_num)).1,
   (C8_theorem.1 { mkCell with signs := 5 } (-1) (by norm_num)).2⟩

end QNV
